import Mathlib

/-!
Verification of the knowledge-base subsystem (chunker, indexer, search,
registry) of the EVM MCP server's `tools.ts`.

The TypeScript source is shallowly embedded: strings are Lean `String`s
(treated as their `List Char` of code points; the repository's data is
ASCII, and `toLowerCase` is modelled on the ASCII range, which is where the
JS and Lean behaviours agree), the flat-file store (`registry.json` plus one
`chunks.jsonl` per source) is a record structure, and the `sha256` helper is
an uninterpreted parameter `hash : String → String`, since every claim here
is insensitive to the concrete digest function.
-/

namespace KB

/-- Whitespace class of JavaScript's `\s` (and of `String.prototype.trim`):
space, tab, line terminators and the Unicode space separators. -/
def jsWS (c : Char) : Bool :=
  c = ' ' || c = '\t' || c = '\n' || c = '\r' ||
  c.toNat = 0x0b || c.toNat = 0x0c || c.toNat = 0xa0 || c.toNat = 0x1680 ||
  (0x2000 ≤ c.toNat && c.toNat ≤ 0x200a) ||
  c.toNat = 0x2028 || c.toNat = 0x2029 || c.toNat = 0x202f ||
  c.toNat = 0x205f || c.toNat = 0x3000 || c.toNat = 0xfeff

/-- Line terminators, which JavaScript's `.` (no `s` flag) does not match. -/
def isLineTerm (c : Char) : Bool :=
  c = '\n' || c = '\r' || c.toNat = 0x2028 || c.toNat = 0x2029

/-- JavaScript `String.prototype.toLowerCase` restricted to the ASCII
range: `A`–`Z` map to `a`–`z`, all other characters are unchanged. -/
def jsCharLower (c : Char) : Char :=
  if 65 ≤ c.toNat ∧ c.toNat ≤ 90 then Char.ofNat (c.toNat + 32) else c

/-- `s.toLowerCase()` on the ASCII range. -/
def jsToLower (s : String) : String :=
  String.mk (s.data.map jsCharLower)

/-- `String.prototype.trim` on a character list: drop `jsWS` characters
from both ends. -/
def jsTrimL (cs : List Char) : List Char :=
  ((cs.dropWhile jsWS).reverse.dropWhile jsWS).reverse

/-- `s.slice(0, n)` (source line 1775: the 400-character snippet). -/
def jsTake (n : Nat) (s : String) : String :=
  String.mk (s.data.take n)

/-- `lines.join("\n")` on the underlying characters. -/
def joinNL : List String → List Char
  | [] => []
  | [l] => l.data
  | l :: ls => l.data ++ '\n' :: joinNL ls

/-- `content.split(/\r?\n/)` on a character list: cut at every `\n` and at
every `\r\n` pair (a lone `\r` stays inside its line). -/
def splitLinesL : List Char → List (List Char)
  | [] => [[]]
  | '\n' :: rest => [] :: splitLinesL rest
  | '\r' :: '\n' :: rest => [] :: splitLinesL rest
  | c :: rest =>
    match splitLinesL rest with
    | [] => [[c]]
    | l :: ls => (c :: l) :: ls

/-- `content.split(/\r?\n/)` (source lines 1610 and 1634). -/
def splitLines (s : String) : List String :=
  (splitLinesL s.data).map String.mk

/-- Accumulating scanner behind `wsTokens`: collects maximal runs of
non-whitespace characters. -/
def wsTokensAux : List Char → List Char → List (List Char)
  | [], acc => if acc = [] then [] else [acc.reverse]
  | c :: rest, acc =>
    if jsWS c then
      if acc = [] then wsTokensAux rest [] else acc.reverse :: wsTokensAux rest []
    else wsTokensAux rest (c :: acc)

/-- `s.split(/\s+/).filter(Boolean)` (source line 1757): the maximal
whitespace-free runs of `s`, empty tokens discarded. -/
def wsTokens (cs : List Char) : List (List Char) :=
  wsTokensAux cs []

/-- Fuelled version of `countOccs`; the fuel only needs to cover the length
of the scanned text. -/
def countOccsF : Nat → List Char → List Char → Nat
  | 0, _, _ => 0
  | _, _, [] => 0
  | fuel + 1, t, c :: rest =>
    if t.isPrefixOf (c :: rest) then 1 + countOccsF fuel t ((c :: rest).drop t.length)
    else countOccsF fuel t rest

/-- `lower.split(t).length - 1` for a non-empty literal separator `t`
(source line 1772): the number of non-overlapping occurrences of `t` in
`s`, scanning left to right. -/
def countOccs (t s : List Char) : Nat :=
  countOccsF s.length t s

/-- One chunk produced by the chunker: 0-based inclusive line range plus
the text slice (`{ start, end, text }` in the source). -/
structure Chunk where
  start : Nat
  «end» : Nat
  text : String
deriving DecidableEq, Repr

/-- The heading test `/^#{1,3}\s+.+/.test(line)` (source line 1614): one to
three leading `#`, then at least one whitespace character, then at least
one character that is not a line terminator (`.` does not match
terminators, but the terminators themselves are `\s`, so backtracking
succeeds exactly when some character after the first whitespace is a
non-terminator). -/
def isHeading (l : String) : Bool :=
  let cs := l.data
  let h := (cs.takeWhile (· = '#')).length
  1 ≤ h && h ≤ 3 &&
    (match cs.drop h with
     | [] => false
     | r0 :: rs => jsWS r0 && rs.any (fun c => !isLineTerm c))

/-- The scanning loop of `chunkMarkdown` (source lines 1613–1619) over the
remaining `(index, line)` pairs, carrying the accumulated chunks and the
current segment start. -/
def mdLoop (lines : List String) : List (Nat × String) → List Chunk × Nat → List Chunk × Nat
  | [], acc => acc
  | (i, l) :: rest, (chunks, start) =>
    if isHeading l ∧ i ≠ 0 then
      let text := jsTrimL (joinNL ((lines.drop start).take (i - start)))
      mdLoop lines rest
        ((if text ≠ [] then chunks ++ [⟨start, i - 1, String.mk text⟩] else chunks), i)
    else mdLoop lines rest (chunks, start)

/-- The no-headings fallback loop of `chunkMarkdown` (source lines
1623–1628): windows of `maxLines = 200` lines with no overlap; fuelled,
`lines.length` fuel is always enough. -/
def mdFallbackF : Nat → Nat → List String → List Chunk
  | 0, _, _ => []
  | fuel + 1, i, lines =>
    if i < lines.length then
      ⟨i, min (i + 199) (lines.length - 1),
        String.mk (joinNL ((lines.drop i).take 200))⟩ :: mdFallbackF fuel (i + 200) lines
    else []

/-- The `chunks.length === 0` fallback of `chunkMarkdown`. -/
def mdFallback (lines : List String) : List Chunk :=
  mdFallbackF lines.length 0 lines

/-- `chunkMarkdown` (source lines 1609–1631): split before every heading
line other than line 0, push each non-blank segment trimmed, push the
trimmed tail, and fall back to 200-line windows if nothing was pushed. -/
def chunkMarkdown (content : String) : List Chunk :=
  let lines := splitLines content
  let scanned := mdLoop lines lines.enum ([], 0)
  let tail := jsTrimL (joinNL (lines.drop scanned.2))
  let chunks :=
    if tail ≠ [] then scanned.1 ++ [⟨scanned.2, lines.length - 1, String.mk tail⟩]
    else scanned.1
  if chunks.isEmpty then mdFallback lines else chunks

/-- The windowing loop of `chunkCode` (source lines 1638–1644): window
size 150, overlap 30 (step 120), the window clipped to the end of the
file, with early exit once the window reaches the last line; fuelled,
`lines.length` fuel is always enough. -/
def codeLoopF : Nat → List String → Nat → List Chunk
  | 0, _, _ => []
  | fuel + 1, lines, i =>
    if i < lines.length then
      let e := min (i + 150) lines.length - 1
      let c : Chunk := ⟨i, e, String.mk (joinNL ((lines.drop i).take (e + 1 - i)))⟩
      if e + 1 ≥ lines.length then [c] else c :: codeLoopF fuel lines (i + 120)
    else []

/-- `chunkCode` (source lines 1633–1647). The trailing `chunks.length === 0`
guard of the source is kept even though the loop always runs at least once
(`split` never returns an empty array). -/
def chunkCode (content : String) : List Chunk :=
  let lines := splitLines content
  let chunks := codeLoopF lines.length lines 0
  if chunks.isEmpty then [⟨0, lines.length - 1, content⟩] else chunks

/-- One persisted chunk record, as written to `chunks.jsonl` (source line
1685): content-hash id, owning source id, relative path, 1-based inclusive
line range, extension, raw text. -/
structure ChunkRec where
  id : String
  sourceId : String
  path : String
  startLine : Nat
  endLine : Nat
  ext : String
  text : String
deriving DecidableEq, Repr

/-- One registry manifest (source line 1691). The origin-reference fields
(`rootPath` / `zipUrl` / `zipHash` / `zipPathPrefix`), which no claim
touches, are not carried. -/
structure Manifest where
  id : String
  mtype : String
  tags : List String
  updatedAt : String
  fileCount : Nat
  chunkCount : Nat
deriving DecidableEq, Repr

/-- The persisted `.kb` directory: `registry.json` plus, per source id, its
`chunks.jsonl` record list. -/
structure KBState where
  registry : List Manifest
  store : List (String × List ChunkRec)
deriving DecidableEq, Repr

/-- Read `sources/<id>/chunks.jsonl`; a missing file reads as empty
(source line 1761's `.catch(() => "")`). -/
def storeGet (store : List (String × List ChunkRec)) (id : String) : List ChunkRec :=
  match store.find? (fun p => p.1 = id) with
  | some p => p.2
  | none => []

/-- Overwrite `sources/<id>/chunks.jsonl` after the `fs.rm` of the source
directory (source lines 1671 and 1693): any previous entry for `id` is
gone, the new record list is written. -/
def storeSet (store : List (String × List ChunkRec)) (id : String)
    (recs : List ChunkRec) : List (String × List ChunkRec) :=
  store.filter (fun p => p.1 ≠ id) ++ [(id, recs)]

/-- One search hit as pushed on source line 1775. -/
structure SearchHit where
  score : Nat
  chunkId : String
  sourceId : String
  path : String
  startLine : Nat
  endLine : Nat
  snippet : String
deriving DecidableEq, Repr

/-- The comparator `(a, b) => b.score - a.score` of source line 1778 as the
order it sorts into: `a` may precede `b` iff `a.score ≥ b.score`. -/
def hitGE (a b : SearchHit) : Prop := b.score ≤ a.score

instance : DecidableRel hitGE := fun a b => Nat.decLe b.score a.score

instance : IsTotal SearchHit hitGE := ⟨fun a b => Nat.le_total b.score a.score⟩

instance : IsTrans SearchHit hitGE := ⟨fun _ _ _ hab hbc => Nat.le_trans hbc hab⟩

/-- JavaScript's stable `Array.prototype.sort` under the comparator of
source line 1778: stable descending sort by score. A stable sort is
uniquely determined by the comparator, so insertion sort reproduces it. -/
def sortHits (hits : List SearchHit) : List SearchHit :=
  List.insertionSort hitGE hits

/-- Does `rec.path` pass the optional `pathPrefix` filter (source
line 1767)? -/
def passesPathFilter (pp : Option String) (p : String) : Bool :=
  match pp with
  | none => true
  | some pre => p.startsWith pre

/-- The `targets` selection of source line 1756: restrict the registry to
the requested source ids when a non-empty list was given. -/
def searchTargets (registry : List Manifest) (ids : Option (List String)) : List Manifest :=
  match ids with
  | some l => if l ≠ [] then registry.filter (fun r => l.contains r.id) else registry
  | none => registry

/-- The hit list built and sorted by `kbSearch` before the `topK` cut
(source lines 1756–1778): for every chunk of every target source that
passes the path filter, sum `lower.split(t).length - 1` over the
whitespace tokens of the lower-cased query, and keep the chunk as a hit
iff the score is positive; then sort descending by score. (The source's
`if (!t) continue` on line 1771 is a no-op: line 1757's `.filter(Boolean)`
already removed empty tokens.) -/
def kbSearchHits (st : KBState) (q : String) (ids : Option (List String))
    (pp : Option String) : List SearchHit :=
  let terms := wsTokens (jsToLower q).data
  sortHits <|
    (searchTargets st.registry ids).flatMap fun src =>
      (storeGet st.store src.id).filterMap fun rec =>
        if passesPathFilter pp rec.path then
          let lower := jsToLower rec.text
          let score := (terms.map fun t => countOccs t lower.data).sum
          if 0 < score then
            some ⟨score, rec.id, rec.sourceId, rec.path, rec.startLine, rec.endLine,
              jsTake 400 rec.text⟩
          else none
        else none

/-- The value returned by `kbSearch` (source line 1779). -/
structure SearchResult where
  query : String
  total : Nat
  results : List SearchHit
deriving DecidableEq, Repr

/-- `kbSearch` (source lines 1750–1780) after schema validation:
`{ query, total: hits.length, results: hits.slice(0, topK) }`. -/
def kbSearch (st : KBState) (q : String) (topK : Nat) (ids : Option (List String))
    (pp : Option String) : SearchResult :=
  let hits := kbSearchHits st q ids pp
  ⟨q, hits.length, hits.take topK⟩

/-- The `topK` field of `kbSearchSchema` (source line 1574):
`z.number().int().positive().max(50).optional().default(10)` on an integer
input — absent means 10, non-positive or above 50 is rejected. -/
def parseTopK : Option Int → Except String Nat
  | none => Except.ok 10
  | some k =>
    if 0 < k then
      if k ≤ 50 then Except.ok k.toNat else Except.error "Number must be less than or equal to 50"
    else Except.error "Number must be greater than 0"

/-- The chunk fingerprint of source lines 1684 and 1727:
`sha256(id + ":" + rel + ":" + start + "-" + end + ":" + sha256(text)).slice(0, 32)`,
over a 0-based line range and an abstract digest `hash`. -/
def cidOf (hash : String → String) (id rel : String) (s e : Nat) (text : String) : String :=
  jsTake 32 (hash (id ++ ":" ++ rel ++ ":" ++ toString s ++ "-" ++ toString e ++ ":" ++ hash text))

/-- One file presented to the ingestion loop: relative path, lower-cased
extension, and the outcome of `fs.readFile` (`Except.error` models a read
that throws and is swallowed by the `catch {}` of source line 1688). The
list stands for the `walkDir` output already filtered by `includeExts`
(source line 1674). -/
structure FileEntry where
  rel : String
  ext : String
  readResult : Except Unit String
deriving Repr

/-- The records one file contributes (source lines 1682–1686): on a
successful read, chunk by extension (`chunkMarkdown` for `.md`, else
`chunkCode`) and build one record per chunk, with the fingerprint id and
1-based line numbers; a read that throws contributes nothing. -/
def fileRecords (hash : String → String) (id : String) (f : FileEntry) : List ChunkRec :=
  match f.readResult with
  | Except.error _ => []
  | Except.ok text =>
    let parts := if f.ext = ".md" then chunkMarkdown text else chunkCode text
    parts.map fun p =>
      ⟨cidOf hash id f.rel p.start p.«end» p.text, id, f.rel,
        p.start + 1, p.«end» + 1, f.ext, p.text⟩

/-- The `fileCount++` of source line 1687, reached only when the read
succeeded. -/
def fileCountInc (f : FileEntry) : Nat :=
  match f.readResult with
  | Except.error _ => 0
  | Except.ok _ => 1

/-- The per-file ingestion loop (source lines 1677–1689): accumulate each
file's records and count the successfully read files; a failed read is
skipped entirely by the `catch {}`. Returns (records, fileCount). -/
def ingestChunks (hash : String → String) (id : String) (files : List FileEntry) :
    List ChunkRec × Nat :=
  files.foldl (fun acc f => (acc.1 ++ fileRecords hash id f, acc.2 + fileCountInc f)) ([], 0)

/-- Replace the registry entry for `id` (source lines 1743–1744):
`registry.filter(r => r.id !== id)` then push the new manifest. -/
def updateRegistry (registry : List Manifest) (id : String) (m : Manifest) : List Manifest :=
  registry.filter (fun r => r.id ≠ id) ++ [m]

/-- The local-directory branch of `kbSyncSource` (source lines 1665–1693
and 1738–1745): the source id is the given `sourceId` or the sanitised
directory basename `dirId`; the source directory is wiped and rewritten
with the new chunk set and manifest, and the registry entry is replaced. -/
def kbSyncLocalModel (hash : String → String) (st : KBState) (sid : Option String)
    (dirId : String) (files : List FileEntry) (tags : List String) (now : String) :
    KBState × Manifest :=
  let id := sid.getD dirId
  let out := ingestChunks hash id files
  let m : Manifest := ⟨id, "local_dir", tags, now, out.2, out.1.length⟩
  (⟨updateRegistry st.registry id m, storeSet st.store id out.1⟩, m)

/-- The ZIP branch of `kbSyncSource` (source lines 1694–1735): identical
store/registry effect, with the source id defaulting to the name derived
from the ZIP url or payload hash (`zipId` here), and manifest type
`"zip"`. The per-entry loop (lines 1716–1731) skips directories,
non-allow-listed extensions and entries whose decode throws, which the
`files` list and each entry's `readResult` stand for. -/
def kbSyncZipModel (hash : String → String) (st : KBState) (sid : Option String)
    (zipId : String) (files : List FileEntry) (tags : List String) (now : String) :
    KBState × Manifest :=
  let id := sid.getD zipId
  let out := ingestChunks hash id files
  let m : Manifest := ⟨id, "zip", tags, now, out.2, out.1.length⟩
  (⟨updateRegistry st.registry id m, storeSet st.store id out.1⟩, m)

/-- `kbSyncSource` (source lines 1649–1748): the `localDir` XOR
`zipUrl/zipBase64` check (lines 1652–1655) precedes every store access, so
both error returns leave the state untouched; otherwise the matching
branch runs. `local?` carries the sanitised directory basename and the
directory's (filtered) files; `zip?` carries the derived ZIP id and the
decoded entries. -/
def kbSyncSource (hash : String → String) (st : KBState) (sid : Option String)
    (local? : Option (String × List FileEntry)) (zip? : Option (String × List FileEntry))
    (tags : List String) (now : String) : KBState × Except String Manifest :=
  match local?, zip? with
  | none, none => (st, Except.error "Provide localDir or zipUrl/zipBase64")
  | some _, some _ => (st, Except.error "Provide only one of localDir or zipUrl/zipBase64")
  | some (dirId, files), none =>
    let out := kbSyncLocalModel hash st sid dirId files tags now
    (out.1, Except.ok out.2)
  | none, some (zipId, files) =>
    let out := kbSyncZipModel hash st sid zipId files tags now
    (out.1, Except.ok out.2)

/-- The `chunkId` branch of `kbGet` (source lines 1789–1808): scan the
registry sources in order and return the first persisted record whose id
matches. -/
def kbGetById (st : KBState) (cid : String) : Option ChunkRec :=
  (st.registry.flatMap fun src =>
    (storeGet st.store src.id).filter fun rec => rec.id = cid).head?

/-- Well-formedness of the persisted store: every record in a source's
`chunks.jsonl` carries that source's id in its `sourceId` field. Every
state the indexer writes satisfies this (see `ingestChunks`). -/
def WFStore (st : KBState) : Prop :=
  ∀ p ∈ st.store, ∀ r ∈ p.2, r.sourceId = p.1

/-! Spec-side definitions (refinement targets), written from the words of
the specification rather than from the source. -/

/-- Score of a chunk exactly as claim C1 states it: the sum, over the
whitespace-separated tokens of the query (empty tokens discarded), of the
non-overlapping occurrences of the token in the lower-cased chunk text.
Note the tokens here come from the query as given, not lower-cased. -/
def specScoreStated (q text : String) : Nat :=
  ((wsTokens q.data).map fun t => countOccs t (jsToLower text).data).sum

/-- Score of a chunk as the amended claim states it: as
`specScoreStated`, but with the tokens drawn from the lower-cased query. -/
def specScore (q text : String) : Nat :=
  ((wsTokens (jsToLower q).data).map fun t => countOccs t (jsToLower text).data).sum

/-- The hit the spec predicts for a chunk record: its spec score, its
identifiers and line range, and the first 400 characters of its text as
the snippet. -/
def specHit (q : String) (rec : ChunkRec) : SearchHit :=
  ⟨specScore q rec.text, rec.id, rec.sourceId, rec.path, rec.startLine, rec.endLine,
    jsTake 400 rec.text⟩

/-- The chunks a search with the given filters ranges over. -/
def chunksInScope (st : KBState) (ids : Option (List String)) (pp : Option String) :
    List ChunkRec :=
  (searchTargets st.registry ids).flatMap fun src =>
    (storeGet st.store src.id).filter fun rec => passesPathFilter pp rec.path

/-- A one-source, one-chunk store used as concrete input by several
counterexamples and witnesses. -/
def kbStC1 : KBState :=
  ⟨[⟨"s", "local_dir", [], "t0", 1, 1⟩],
   [("s", [⟨"c1", "s", "f.md", 1, 1, ".md", "a"⟩])]⟩

/-- A heading-free 151-line Markdown document. -/
def mdDoc151 : String := String.mk (joinNL (List.replicate 151 "x"))

/-- The 10-line heading-free Markdown document of the spec's concrete
scenario. -/
def mdDoc10 : String := String.mk (joinNL (List.replicate 10 "alpha"))

/-- The 400-line code file of the spec's concrete scenario. -/
def codeFile400 : String := String.mk (joinNL (List.replicate 400 "code"))

/-- Line `j` lies inside some chunk of `C`. -/
def covered (C : List Chunk) (j : Nat) : Prop :=
  ∃ c ∈ C, c.start ≤ j ∧ j ≤ c.«end»

/-- The line consists of whitespace only. -/
def wsLine (l : String) : Prop :=
  ∀ ch ∈ l.data, jsWS ch = true

/-- Lines `0 … j` are all whitespace-only. -/
def wsPrefixTo (lines : List String) (j : Nat) : Prop :=
  ∀ k, k ≤ j → wsLine (lines.getD k "")

/-- Invariant of the `chunkMarkdown` scanning loop: if nothing was pushed
the segment start is still 0; a non-zero segment start sits on a heading
line; and every line below the segment start is covered by a pushed chunk
or lies in an all-whitespace prefix of the file. -/
def mdInv (lines : List String) (chunks : List Chunk) (start : Nat) : Prop :=
  (start = 0 → chunks = []) ∧
  (start ≠ 0 → start < lines.length ∧ isHeading (lines.getD start "") = true) ∧
  (∀ j, j < start → covered chunks j ∨ wsPrefixTo lines j)

/-! Supporting lemmas. -/

theorem splitLinesL_ne_nil (cs : List Char) : splitLinesL cs ≠ [] := by
  induction cs using splitLinesL.induct <;> simp_all [splitLinesL]

theorem splitLines_ne_nil (s : String) : splitLines s ≠ [] := by
  simpa [splitLines] using splitLinesL_ne_nil s.data

theorem dropWhile_head_false {p : Char → Bool} {cs : List Char} {d : Char} {ds : List Char}
    (h : cs.dropWhile p = d :: ds) : p d = false := by
  induction cs with
  | nil => simp at h
  | cons c cs ih =>
    by_cases hc : p c
    · exact ih (by simpa [List.dropWhile, hc] using h)
    · simp only [List.dropWhile, hc] at h
      injection h with h1 _
      subst h1
      simpa using hc

theorem jsTrimL_eq_nil_iff {cs : List Char} : jsTrimL cs = [] ↔ ∀ c ∈ cs, jsWS c = true := by
  constructor
  · intro h
    cases e : cs.dropWhile jsWS with
    | nil => exact List.dropWhile_eq_nil_iff.mp e
    | cons d ds =>
      exfalso
      have hws : ∀ c ∈ (cs.dropWhile jsWS).reverse, jsWS c = true := by
        have h2 : (cs.dropWhile jsWS).reverse.dropWhile jsWS = [] := by
          simpa [jsTrimL, List.reverse_eq_nil_iff] using h
        exact List.dropWhile_eq_nil_iff.mp h2
      have hd : jsWS d = true := hws d (by simp [e])
      simp [dropWhile_head_false e] at hd
  · intro h
    have h1 : cs.dropWhile jsWS = [] := List.dropWhile_eq_nil_iff.mpr h
    simp [jsTrimL, h1]

theorem joinNL_all_ws (ls : List String) :
    (∀ c ∈ joinNL ls, jsWS c = true) ↔ ∀ l ∈ ls, ∀ c ∈ l.data, jsWS c = true := by
  induction ls with
  | nil => simp [joinNL]
  | cons l ls ih =>
    cases ls with
    | nil => simp [joinNL]
    | cons l2 ls2 =>
      simp only [joinNL, List.mem_append, List.mem_cons] at ih ⊢
      constructor
      · intro h
        refine fun x hx => ?_
        rcases hx with hx | hx
        · exact fun c hc => h c (Or.inl (by simpa [hx] using hc))
        · exact ih.mp (fun c hc => h c (Or.inr (Or.inr hc))) x hx
      · intro h c hc
        rcases hc with hc | hc | hc
        · exact h l (Or.inl rfl) c hc
        · subst hc; decide
        · exact ih.mpr (fun x hx => h x (Or.inr hx)) c hc

theorem isHeading_head {l : String} (h : isHeading l = true) :
    ∃ cs, l.data = '#' :: cs := by
  simp only [isHeading, Bool.and_eq_true, decide_eq_true_eq] at h
  rcases h with ⟨⟨h1, _⟩, _⟩
  cases e : l.data with
  | nil => simp [e] at h1
  | cons c cs =>
    by_cases hc : c = '#'
    · exact ⟨cs, by rw [hc]⟩
    · rw [e] at h1
      simp [List.takeWhile, hc] at h1

theorem isHeading_not_ws {l : String} (h : isHeading l = true) :
    ¬ ∀ c ∈ l.data, jsWS c = true := by
  obtain ⟨cs, e⟩ := isHeading_head h
  intro hall
  have := hall '#' (by simp [e])
  simp [jsWS] at this

theorem jsCharLower_of_ws {c : Char} (h : jsWS c = true) : jsCharLower c = c := by
  have hn : ¬ (65 ≤ c.toNat ∧ c.toNat ≤ 90) := by
    simp only [jsWS, Bool.or_eq_true, decide_eq_true_eq, Bool.and_eq_true] at h
    obtain ((((((((((((((h | h) | h) | h) | h) | h) | h) | h) | h) | h) | h) | h) | h) | h) | h) := h
    all_goals first
      | omega
      | (subst h; decide)
  simp [jsCharLower, hn]

theorem jsToLower_of_ws {q : String} (h : ∀ c ∈ q.data, jsWS c = true) :
    (jsToLower q).data = q.data := by
  simp only [jsToLower]
  exact List.map_congr_left (fun c hc => jsCharLower_of_ws (h c hc)) |>.trans (List.map_id _)

theorem wsTokensAux_all_ws {cs : List Char} (h : ∀ c ∈ cs, jsWS c = true) :
    wsTokensAux cs [] = [] := by
  induction cs with
  | nil => simp [wsTokensAux]
  | cons c rest ih =>
    have hc : jsWS c = true := h c (by simp)
    simp only [wsTokensAux, hc, if_true]
    exact ih (fun x hx => h x (by simp [hx]))

/-! Search lemmas. -/

theorem filterMap_specHit (q : String) (pp : Option String) (recs : List ChunkRec) :
    (recs.filterMap fun rec =>
      if passesPathFilter pp rec.path then
        let lower := jsToLower rec.text
        let score := ((wsTokens (jsToLower q).data).map fun t => countOccs t lower.data).sum
        if 0 < score then
          some ⟨score, rec.id, rec.sourceId, rec.path, rec.startLine, rec.endLine,
            jsTake 400 rec.text⟩
        else none
      else none) =
    ((recs.filter fun rec => passesPathFilter pp rec.path).map (specHit q)).filter
      fun h => 0 < h.score := by
  induction recs with
  | nil => rfl
  | cons rec recs ih =>
    by_cases hp : passesPathFilter pp rec.path
    · by_cases hs :
        0 < ((wsTokens (jsToLower q).data).map fun t => countOccs t (jsToLower rec.text).data).sum
      · simp only [List.filterMap_cons, List.filter_cons, List.map_cons, hp, if_true, hs]
        simp only [specHit, specScore]
        simp [ih, hs]
      · simp only [List.filterMap_cons, List.filter_cons, List.map_cons, hp, if_true]
        simp only [specHit, specScore]
        simp [ih, hs]
    · simp [List.filterMap_cons, List.filter_cons, hp, ih]

theorem kbSearchHits_eq (st : KBState) (q : String) (ids : Option (List String))
    (pp : Option String) :
    kbSearchHits st q ids pp =
      sortHits (((chunksInScope st ids pp).map (specHit q)).filter fun h => 0 < h.score) := by
  simp only [kbSearchHits, chunksInScope]
  rw [List.map_flatMap, List.filter_flatMap]
  congr 1
  exact List.flatMap_congr fun src _ => filterMap_specHit q pp (storeGet st.store src.id)

theorem kbSearchHits_sorted (st : KBState) (q : String) (ids : Option (List String))
    (pp : Option String) : List.Sorted hitGE (kbSearchHits st q ids pp) := by
  unfold kbSearchHits sortHits
  exact List.sorted_insertionSort hitGE _

theorem kbSearchHits_perm (st : KBState) (q : String) (ids : Option (List String))
    (pp : Option String) :
    (kbSearchHits st q ids pp).Perm
      (((chunksInScope st ids pp).map (specHit q)).filter fun h => 0 < h.score) := by
  rw [kbSearchHits_eq]
  exact List.perm_insertionSort hitGE _

theorem kbSearchHits_origin {st : KBState} {q : String} {ids : Option (List String)}
    {pp : Option String} {h : SearchHit} (hh : h ∈ kbSearchHits st q ids pp) :
    ∃ src ∈ searchTargets st.registry ids, ∃ rec ∈ storeGet st.store src.id,
      h.chunkId = rec.id ∧ h.sourceId = rec.sourceId := by
  have hmem := (kbSearchHits_perm st q ids pp).mem_iff.mp hh
  rw [List.mem_filter] at hmem
  rw [List.mem_map] at hmem
  obtain ⟨⟨rec, hrec, rfl⟩, _⟩ := hmem
  unfold chunksInScope at hrec
  rw [List.mem_flatMap] at hrec
  obtain ⟨src, hsrc, hrec⟩ := hrec
  rw [List.mem_filter] at hrec
  exact ⟨src, hsrc, rec, hrec.1, rfl, rfl⟩


/-- C1 (amended): for every query and every store state, `kbSearch` keeps
exactly the in-scope chunks whose score — the sum, over the whitespace
tokens of the LOWER-CASED query, of the non-overlapping occurrences of the
token in the lower-cased chunk text — is positive, each carrying the first
400 characters of the chunk text as its snippet; the hit list is sorted in
descending score order, and the returned results are its `topK`-element
front. (The original claim drew the tokens from the query as given, not
lower-cased; see the counterexample.) -/
theorem search_scoring_spec :
    ∀ (st : KBState) (q : String) (ids : Option (List String)) (pp : Option String),
    (kbSearchHits st q ids pp).Perm
      (((chunksInScope st ids pp).map (specHit q)).filter fun h => 0 < h.score) ∧
    List.Sorted hitGE (kbSearchHits st q ids pp) ∧
    ∀ topK, (kbSearch st q topK ids pp).results = (kbSearchHits st q ids pp).take topK := by
  intro st q ids pp
  exact ⟨kbSearchHits_perm st q ids pp, kbSearchHits_sorted st q ids pp, fun _ => rfl⟩

/-- C1 counterexample: on the store holding the single chunk `"a"`, the
query `"A"` returns that chunk (the code lower-cases the query before
tokenizing), while the claim's scoring — occurrences of the token `"A"` as
given in the lower-cased chunk text — is 0, which by the claim would
exclude the chunk from the results. -/
theorem search_stated_scoring_cex :
    (kbSearch kbStC1 "A" 10 none none).results.map (fun h => h.chunkId) = ["c1"] ∧
    specScoreStated "A" "a" = 0 := by decide

/-- C10: a query consisting only of whitespace (including the empty query)
tokenizes to nothing, so every chunk scores 0 and `kbSearch` returns the
successful result with an empty result list and total 0, whatever the
store holds. -/
theorem search_ws_query :
    ∀ (st : KBState) (q : String) (topK : Nat) (ids : Option (List String))
      (pp : Option String), (∀ c ∈ q.data, jsWS c = true) →
    kbSearch st q topK ids pp = ⟨q, 0, []⟩ := by
  intro st q topK ids pp h
  have hlow := jsToLower_of_ws h
  have hterms : wsTokens (jsToLower q).data = [] := by
    unfold wsTokens
    rw [hlow]
    exact wsTokensAux_all_ws h
  have hnil : kbSearchHits st q ids pp = [] := by
    rw [kbSearchHits_eq]
    have hfil : (((chunksInScope st ids pp).map (specHit q)).filter fun h => 0 < h.score) = [] := by
      rw [List.filter_eq_nil_iff]
      intro a ha
      rw [List.mem_map] at ha
      obtain ⟨rec, _, rfl⟩ := ha
      simp [specHit, specScore, hterms]
    rw [hfil]
    rfl
  simp [kbSearch, hnil]

/-- C10 witness: the all-whitespace query `" \t"` on the concrete store. -/
theorem search_ws_query_witness :
    (∀ c ∈ (" \t" : String).data, jsWS c = true) ∧
    kbSearch kbStC1 " \t" 3 none none = ⟨" \t", 0, []⟩ :=
  ⟨by decide, search_ws_query kbStC1 " \t" 3 none none (by decide)⟩

/-- C8: `kbSearch` returns at most `topK` results for every store and
query; the schema defaults an absent `topK` to 10 and rejects any value
above the hard maximum 50; in particular `topK = 5` never yields more than
5 results. -/
theorem search_topK_cap :
    (∀ (st : KBState) (q : String) (topK : Nat) (ids : Option (List String))
        (pp : Option String), (kbSearch st q topK ids pp).results.length ≤ topK) ∧
    parseTopK none = Except.ok 10 ∧
    (∀ k : Int, 50 < k →
      parseTopK (some k) = Except.error "Number must be less than or equal to 50") ∧
    (∀ (st : KBState) (q : String) (ids : Option (List String)) (pp : Option String),
      (kbSearch st q 5 ids pp).results.length ≤ 5) := by
  refine ⟨fun st q topK ids pp => ?_, rfl, fun k hk => ?_, fun st q ids pp => ?_⟩
  · simp only [kbSearch]
    exact List.length_take_le _ _
  · have h0 : (0 : Int) < k := by omega
    have h50 : ¬ (k ≤ 50) := by omega
    simp [parseTopK, h0, h50]
  · simp only [kbSearch]
    exact List.length_take_le _ _

/-- C8 witness: `topK = 51` is rejected, an absent `topK` parses to 10,
and a `topK = 5` search on the concrete store returns at most 5 hits. -/
theorem search_topK_cap_witness :
    (50 < (51 : Int)) ∧
    parseTopK (some 51) = Except.error "Number must be less than or equal to 50" ∧
    (kbSearch kbStC1 "a" 5 none none).results.length ≤ 5 :=
  ⟨by decide, search_topK_cap.2.2.1 51 (by decide), search_topK_cap.2.2.2 kbStC1 "a" none none⟩

/-! Store and ingestion lemmas. -/

theorem storeGet_storeSet (store : List (String × List ChunkRec)) (id : String)
    (recs : List ChunkRec) : storeGet (storeSet store id recs) id = recs := by
  unfold storeGet storeSet
  have hnone : (store.filter fun p => p.1 ≠ id).find? (fun p => p.1 = id) = none := by
    rw [List.find?_eq_none]
    intro p hp
    have := (List.mem_filter.mp hp).2
    simpa using this
  rw [List.find?_append, hnone]
  simp

theorem filter_updateRegistry (reg : List Manifest) (id : String) (m : Manifest)
    (hm : m.id = id) : (updateRegistry reg id m).filter (fun r => r.id = id) = [m] := by
  unfold updateRegistry
  rw [List.filter_append]
  have h1 : (reg.filter fun r => r.id ≠ id).filter (fun r => r.id = id) = [] := by
    rw [List.filter_filter, List.filter_eq_nil_iff]
    intro r _
    simp only [Bool.and_eq_true, decide_eq_true_eq]
    rintro ⟨h2, h3⟩
    exact absurd h2 (by simpa using h3)
  rw [h1]
  simp [hm]

theorem WFStore_mem {st : KBState} (h : WFStore st) {key : String} {rec : ChunkRec}
    (hr : rec ∈ storeGet st.store key) : rec.sourceId = key := by
  unfold storeGet at hr
  cases e : st.store.find? (fun p => p.1 = key) with
  | none => rw [e] at hr; simp at hr
  | some p =>
    rw [e] at hr
    have hp : p.1 = key := by simpa using List.find?_some e
    have hmem := List.mem_of_find?_eq_some e
    rw [h p hmem rec hr]
    exact hp

theorem ingestChunks_fst (hash : String → String) (id : String) (files : List FileEntry) :
    (ingestChunks hash id files).1 = files.flatMap (fileRecords hash id) := by
  unfold ingestChunks
  suffices hgen : ∀ (fs : List FileEntry) (acc : List ChunkRec × Nat),
      (fs.foldl (fun acc f => (acc.1 ++ fileRecords hash id f, acc.2 + fileCountInc f)) acc).1 =
        acc.1 ++ fs.flatMap (fileRecords hash id) by
    simpa using hgen files ([], 0)
  intro fs
  induction fs with
  | nil => simp
  | cons f fs ih =>
    intro acc
    simp only [List.foldl_cons, List.flatMap_cons, ih]
    simp

theorem ingestChunks_mem (hash : String → String) (id : String) (files : List FileEntry) :
    ∀ r ∈ (ingestChunks hash id files).1,
      r.sourceId = id ∧
      r.id = cidOf hash id r.path (r.startLine - 1) (r.endLine - 1) r.text := by
  intro r hr
  rw [ingestChunks_fst, List.mem_flatMap] at hr
  obtain ⟨f, _, hr⟩ := hr
  unfold fileRecords at hr
  cases hres : f.readResult with
  | error e => rw [hres] at hr; simp at hr
  | ok text =>
    rw [hres] at hr
    simp only [List.mem_map] at hr
    obtain ⟨p, _, rfl⟩ := hr
    exact ⟨rfl, by simp [cidOf]⟩

theorem ingestChunks_skip (hash : String → String) (id : String)
    (pre post : List FileEntry) (bad : FileEntry) (hb : bad.readResult = Except.error ()) :
    ingestChunks hash id (pre ++ bad :: post) = ingestChunks hash id (pre ++ post) := by
  unfold ingestChunks
  rw [List.foldl_append, List.foldl_append, List.foldl_cons]
  have hstep : ∀ acc : List ChunkRec × Nat,
      (acc.1 ++ fileRecords hash id bad, acc.2 + fileCountInc bad) = acc := by
    intro acc
    simp [fileRecords, fileCountInc, hb]
  rw [hstep]

/-- C6: a chunk's fingerprint is a function of exactly (source id,
relative path, 0-based line range, chunk text): ingesting the same files
under the same id, from any two prior states, at any two timestamps and
with any tags, persists identical fingerprint lists, and every persisted
record's id equals the fingerprint of its own (id, path, range, text)
tuple. -/
theorem fingerprint_deterministic :
    ∀ (hash : String → String) (st st' : KBState) (sid : Option String) (dirId : String)
      (files : List FileEntry) (tags tags' : List String) (now now' : String),
    (storeGet (kbSyncLocalModel hash st sid dirId files tags now).1.store
        (sid.getD dirId)).map (fun r => r.id) =
      (storeGet (kbSyncLocalModel hash st' sid dirId files tags' now').1.store
        (sid.getD dirId)).map (fun r => r.id) ∧
    ∀ r ∈ (ingestChunks hash (sid.getD dirId) files).1,
      r.id = cidOf hash (sid.getD dirId) r.path (r.startLine - 1) (r.endLine - 1) r.text := by
  intro hash st st' sid dirId files tags tags' now now'
  constructor
  · simp only [kbSyncLocalModel, storeGet_storeSet]
  · intro r hr
    exact (ingestChunks_mem hash (sid.getD dirId) files r hr).2

/-- C6 witness: ingesting the single file `f.md` with text `"hi"` under
source id `s` and the identity digest; the produced record's fingerprint
is the (truncated) digest of `"s:f.md:0-0:hi"`. -/
theorem fingerprint_deterministic_witness :
    (⟨"s:f.md:0-0:hi", "s", "f.md", 1, 1, ".md", "hi"⟩ : ChunkRec) ∈
      (ingestChunks (fun s => s) "s" [⟨"f.md", ".md", Except.ok "hi"⟩]).1 ∧
    (⟨"s:f.md:0-0:hi", "s", "f.md", 1, 1, ".md", "hi"⟩ : ChunkRec).id =
      cidOf (fun s => s) "s" "f.md" (1 - 1) (1 - 1) "hi" :=
  ⟨by decide,
    (fingerprint_deterministic (fun s => s) ⟨[], []⟩ ⟨[], []⟩ (some "s") "d"
        [⟨"f.md", ".md", Except.ok "hi"⟩] [] [] "t" "t").2 _ (by decide)⟩

/-- C7: re-ingesting under an identifier is destructive. After
`kbSyncSource`'s local branch completes, the persisted chunk list for that
identifier is exactly the newly produced one, the registry holds exactly
one entry for the identifier — the new manifest —, the store stays
well-formed, and any chunk retrieved via search or get-by-id under that
identifier is one of the new chunks. -/
theorem kbSync_destructive :
    ∀ (hash : String → String) (st : KBState) (sid : Option String) (dirId : String)
      (files : List FileEntry) (tags : List String) (now : String)
      (st' : KBState) (m : Manifest),
    WFStore st →
    kbSyncLocalModel hash st sid dirId files tags now = (st', m) →
    storeGet st'.store (sid.getD dirId) = (ingestChunks hash (sid.getD dirId) files).1 ∧
    st'.registry.filter (fun r => r.id = sid.getD dirId) = [m] ∧
    WFStore st' ∧
    (∀ (q : String) (topK : Nat) (qids : Option (List String)) (pp : Option String)
        (h : SearchHit), h ∈ (kbSearch st' q topK qids pp).results →
      h.sourceId = sid.getD dirId →
      h.chunkId ∈ (ingestChunks hash (sid.getD dirId) files).1.map fun r => r.id) ∧
    (∀ (cid : String) (rec : ChunkRec), kbGetById st' cid = some rec →
      rec.sourceId = sid.getD dirId → rec ∈ (ingestChunks hash (sid.getD dirId) files).1) := by
  intro hash st sid dirId files tags now st' m hWF heq
  have e1 := congrArg Prod.fst heq
  have e2 := congrArg Prod.snd heq
  simp only at e1 e2
  subst e1
  subst e2
  simp only [kbSyncLocalModel]
  have hWF' : WFStore (kbSyncLocalModel hash st sid dirId files tags now).1 := by
    intro p hp r hr
    simp only [kbSyncLocalModel, storeSet] at hp
    rw [List.mem_append] at hp
    rcases hp with hp | hp
    · exact hWF p (List.mem_of_mem_filter hp) r hr
    · rw [List.mem_singleton] at hp
      subst hp
      exact (ingestChunks_mem hash (sid.getD dirId) files r hr).1
  refine ⟨storeGet_storeSet _ _ _, filter_updateRegistry _ _ _ rfl, hWF', ?_, ?_⟩
  · intro q topK qids pp h hres hsid
    have hh : h ∈ kbSearchHits (kbSyncLocalModel hash st sid dirId files tags now).1 q qids pp :=
      List.mem_of_mem_take (by simpa [kbSearch] using hres)
    obtain ⟨src, _, rec, hrec, hcid, hsrcid⟩ := kbSearchHits_origin hh
    have hkey : rec.sourceId = src.id := WFStore_mem hWF' hrec
    have hsrc_id : src.id = sid.getD dirId := by rw [← hkey, ← hsrcid, hsid]
    rw [hsrc_id] at hrec
    have hrec' : rec ∈ (ingestChunks hash (sid.getD dirId) files).1 := by
      simpa only [kbSyncLocalModel, storeGet_storeSet] using hrec
    exact List.mem_map.mpr ⟨rec, hrec', hcid.symm⟩
  · intro cid rec hget hsid
    unfold kbGetById at hget
    have hmem := List.mem_of_mem_head? hget
    rw [List.mem_flatMap] at hmem
    obtain ⟨src, _, hrec⟩ := hmem
    rw [List.mem_filter] at hrec
    have hkey : rec.sourceId = src.id := WFStore_mem hWF' hrec.1
    have hsrc_id : src.id = sid.getD dirId := by rw [← hkey, hsid]
    have hrec1 := hrec.1
    rw [hsrc_id] at hrec1
    simpa only [kbSyncLocalModel, storeGet_storeSet] using hrec1

/-- C7 witness: re-ingesting source id `s` (already present with an old
chunk) on the concrete store; the hypotheses hold by computation. -/
theorem kbSync_destructive_witness :
    WFStore kbStC1 ∧
    kbSyncLocalModel (fun s => s) kbStC1 (some "s") "d" [⟨"f.md", ".md", Except.ok "hi"⟩]
        [] "t1" =
      ((kbSyncLocalModel (fun s => s) kbStC1 (some "s") "d" [⟨"f.md", ".md", Except.ok "hi"⟩]
        [] "t1").1,
       (kbSyncLocalModel (fun s => s) kbStC1 (some "s") "d" [⟨"f.md", ".md", Except.ok "hi"⟩]
        [] "t1").2) ∧
    storeGet (kbSyncLocalModel (fun s => s) kbStC1 (some "s") "d"
        [⟨"f.md", ".md", Except.ok "hi"⟩] [] "t1").1.store ((some "s").getD "d") =
      (ingestChunks (fun s => s) ((some "s").getD "d") [⟨"f.md", ".md", Except.ok "hi"⟩]).1 :=
  ⟨by unfold WFStore; decide, rfl,
    (kbSync_destructive (fun s => s) kbStC1 (some "s") "d" [⟨"f.md", ".md", Except.ok "hi"⟩]
      [] "t1" _ _ (by unfold WFStore; decide) rfl).1⟩

/-- C9: `kbSyncSource` rejects a request that supplies neither or both of
a local directory and a ZIP payload, in both cases leaving the persisted
state untouched; a per-file read failure inside the local branch is
swallowed — the file is skipped, the other files are ingested exactly as
if it were absent, and the operation still returns the manifest rather
than an error. -/
theorem kbSync_input_validation :
    ∀ (hash : String → String) (st : KBState) (sid : Option String) (tags : List String)
      (now : String),
    kbSyncSource hash st sid none none tags now =
      (st, Except.error "Provide localDir or zipUrl/zipBase64") ∧
    (∀ (lo zp : String × List FileEntry),
      kbSyncSource hash st sid (some lo) (some zp) tags now =
        (st, Except.error "Provide only one of localDir or zipUrl/zipBase64")) ∧
    (∀ (dirId : String) (pre post : List FileEntry) (bad : FileEntry),
      bad.readResult = Except.error () →
      kbSyncSource hash st sid (some (dirId, pre ++ bad :: post)) none tags now =
        kbSyncSource hash st sid (some (dirId, pre ++ post)) none tags now ∧
      (kbSyncSource hash st sid (some (dirId, pre ++ bad :: post)) none tags now).2 =
        Except.ok (kbSyncLocalModel hash st sid dirId (pre ++ bad :: post) tags now).2) := by
  intro hash st sid tags now
  refine ⟨rfl, fun lo zp => rfl, fun dirId pre post bad hb => ⟨?_, rfl⟩⟩
  simp only [kbSyncSource, kbSyncLocalModel, ingestChunks_skip hash (sid.getD dirId)
    pre post bad hb]

/-- C9 witness: a read failure on `b.md` between two good files is
skipped and the sync still succeeds. -/
theorem kbSync_input_validation_witness :
    (⟨"b.md", ".md", Except.error ()⟩ : FileEntry).readResult = Except.error () ∧
    (kbSyncSource (fun s => s) kbStC1 (some "s")
        (some ("d", [⟨"f.md", ".md", Except.ok "hi"⟩] ++
          (⟨"b.md", ".md", Except.error ()⟩ : FileEntry) :: [⟨"g.md", ".md", Except.ok "yo"⟩]))
        none [] "t1" =
      kbSyncSource (fun s => s) kbStC1 (some "s")
        (some ("d", [⟨"f.md", ".md", Except.ok "hi"⟩] ++ [⟨"g.md", ".md", Except.ok "yo"⟩]))
        none [] "t1" ∧
    (kbSyncSource (fun s => s) kbStC1 (some "s")
        (some ("d", [⟨"f.md", ".md", Except.ok "hi"⟩] ++
          (⟨"b.md", ".md", Except.error ()⟩ : FileEntry) :: [⟨"g.md", ".md", Except.ok "yo"⟩]))
        none [] "t1").2 =
      Except.ok (kbSyncLocalModel (fun s => s) kbStC1 (some "s") "d"
        ([⟨"f.md", ".md", Except.ok "hi"⟩] ++
          (⟨"b.md", ".md", Except.error ()⟩ : FileEntry) :: [⟨"g.md", ".md", Except.ok "yo"⟩])
        [] "t1").2) :=
  ⟨rfl,
    (kbSync_input_validation (fun s => s) kbStC1 (some "s") [] "t1").2.2 "d"
      [⟨"f.md", ".md", Except.ok "hi"⟩] [⟨"g.md", ".md", Except.ok "yo"⟩]
      ⟨"b.md", ".md", Except.error ()⟩ rfl⟩

/-! Chunker lemmas. -/

theorem codeLoopF_cover :
    ∀ (fuel : Nat) (lines : List String) (i : Nat),
    lines.length ≤ fuel + i → i < lines.length →
    ∀ j, (∃ c ∈ codeLoopF fuel lines i, c.start ≤ j ∧ j ≤ c.«end») ↔
      (i ≤ j ∧ j < lines.length) := by
  intro fuel
  induction fuel with
  | zero => intro lines i hfuel hi; omega
  | succ fuel ih =>
    intro lines i hfuel hi j
    simp only [codeLoopF, if_pos hi]
    by_cases hend : min (i + 150) lines.length - 1 + 1 ≥ lines.length
    · rw [if_pos hend]
      simp only [List.mem_singleton]
      constructor
      · rintro ⟨c, rfl, h1, h2⟩
        dsimp only at h1 h2
        omega
      · intro hj
        refine ⟨_, rfl, ?_, ?_⟩ <;> dsimp only <;> omega
    · rw [if_neg hend]
      have hmin : min (i + 150) lines.length = i + 150 := by omega
      rw [hmin]
      have hrec := ih lines (i + 120) (by omega) (by omega) j
      simp only [List.mem_cons]
      constructor
      · rintro ⟨c, hc | hc, h1, h2⟩
        · subst hc
          dsimp only at h1 h2
          omega
        · have := hrec.mp ⟨c, hc, h1, h2⟩
          omega
      · intro hj
        by_cases hcase : j ≤ i + 149
        · refine ⟨_, Or.inl rfl, ?_, ?_⟩ <;> dsimp only <;> omega
        · obtain ⟨c, hc, hcov⟩ := hrec.mpr ⟨by omega, hj.2⟩
          exact ⟨c, Or.inr hc, hcov⟩

theorem mdFallbackF_eq :
    ∀ (fuel : Nat) (lines : List String) (i : Nat),
    lines.length ≤ fuel + i →
    mdFallbackF fuel i lines =
      (List.range ((lines.length - i + 199) / 200)).map fun k =>
        ⟨i + 200 * k, min (i + 200 * k + 199) (lines.length - 1),
          String.mk (joinNL ((lines.drop (i + 200 * k)).take 200))⟩ := by
  intro fuel
  induction fuel with
  | zero =>
    intro lines i h
    have hz : lines.length - i = 0 := by omega
    rw [hz]
    simp [mdFallbackF]
  | succ fuel ih =>
    intro lines i h
    by_cases hi : i < lines.length
    · simp only [mdFallbackF, if_pos hi]
      rw [ih lines (i + 200) (by omega)]
      have hd : (lines.length - i + 199) / 200 = (lines.length - (i + 200) + 199) / 200 + 1 := by
        rcases le_or_lt lines.length (i + 200) with hc | hc
        · have e1 : lines.length - (i + 200) = 0 := by omega
          have e2 : lines.length - i + 199 = (lines.length - i - 1) + 200 := by omega
          rw [e1, e2, Nat.add_div_right _ (by norm_num)]
          have e3 : (lines.length - i - 1) / 200 = 0 := Nat.div_eq_of_lt (by omega)
          have e4 : (0 + 199) / 200 = 0 := by norm_num
          rw [e3, e4]
        · have e2 : lines.length - i + 199 = (lines.length - (i + 200) + 199) + 200 := by omega
          rw [e2, Nat.add_div_right _ (by norm_num)]
      rw [hd, List.range_succ_eq_map, List.map_cons, List.map_map]
      refine congrArg₂ List.cons ?_ ?_
      · simp
      · refine List.map_congr_left fun k hk => ?_
        simp only [Function.comp_apply, Nat.succ_eq_add_one]
        have e5 : i + 200 * (k + 1) = i + 200 + 200 * k := by ring
        rw [e5]
    · have hz : lines.length - i = 0 := by omega
      rw [hz]
      simp [mdFallbackF, hi]

theorem mdFallback_ne_nil {lines : List String} (h : lines ≠ []) : mdFallback lines ≠ [] := by
  unfold mdFallback
  have h0 : 0 < lines.length := List.length_pos.mpr h
  cases e : lines.length with
  | zero => omega
  | succ n =>
    simp [mdFallbackF, h0]

theorem mem_enum_snd {α : Type} {p : Nat × α} {l : List α} (hp : p ∈ l.enum) : p.2 ∈ l := by
  have := List.mem_map_of_mem Prod.snd hp
  rwa [List.enum_map_snd] at this

theorem mdLoop_no_heading (lines : List String) :
    ∀ (ps : List (Nat × String)) (acc : List Chunk × Nat),
    (∀ p ∈ ps, isHeading p.2 = false) → mdLoop lines ps acc = acc := by
  intro ps
  induction ps with
  | nil => intro acc _; rfl
  | cons p ps ih =>
    intro acc h
    obtain ⟨i, l⟩ := p
    obtain ⟨chunks, start⟩ := acc
    have hl : isHeading l = false := h (i, l) (List.mem_cons_self _ _)
    simp only [mdLoop]
    rw [if_neg (by simp [hl])]
    exact ih _ fun p hp => h p (List.mem_cons_of_mem _ hp)

theorem chunkMarkdown_eq_of_tail_ne {content : String}
    (ht : jsTrimL (joinNL ((splitLines content).drop
      (mdLoop (splitLines content) (splitLines content).enum ([], 0)).2)) ≠ []) :
    chunkMarkdown content =
      (mdLoop (splitLines content) (splitLines content).enum ([], 0)).1 ++
      [⟨(mdLoop (splitLines content) (splitLines content).enum ([], 0)).2,
        (splitLines content).length - 1,
        String.mk (jsTrimL (joinNL ((splitLines content).drop
          (mdLoop (splitLines content) (splitLines content).enum ([], 0)).2)))⟩] := by
  simp only [chunkMarkdown]
  rw [if_pos ht, if_neg (by simp)]

theorem chunkMarkdown_eq_fallback {content : String}
    (hch : (mdLoop (splitLines content) (splitLines content).enum ([], 0)).1 = [])
    (ht : jsTrimL (joinNL ((splitLines content).drop
      (mdLoop (splitLines content) (splitLines content).enum ([], 0)).2)) = []) :
    chunkMarkdown content = mdFallback (splitLines content) := by
  simp only [chunkMarkdown]
  rw [ht, hch]
  simp


/-- C3 (amended): a non-empty heading-free Markdown file is NOT windowed at
150/30. If its text has any non-whitespace character, the chunker emits a
single chunk spanning all lines; only when the whole text is whitespace
does it fall back to fixed windows, and those windows are 200 lines with
no overlap (the k-th window starting at line 200·k, the last clipped to
the file end). -/
theorem md_no_heading_behavior :
    ∀ content : String, (∀ l ∈ splitLines content, isHeading l = false) →
    (jsTrimL (joinNL (splitLines content)) ≠ [] →
      (chunkMarkdown content).map (fun c => (c.start, c.«end»)) =
        [(0, (splitLines content).length - 1)]) ∧
    (jsTrimL (joinNL (splitLines content)) = [] →
      (chunkMarkdown content).map (fun c => (c.start, c.«end»)) =
        (List.range (((splitLines content).length + 199) / 200)).map
          fun k => (200 * k, min (200 * k + 199) ((splitLines content).length - 1))) := by
  intro content hnh
  have hloop : mdLoop (splitLines content) (splitLines content).enum ([], 0) = ([], 0) :=
    mdLoop_no_heading _ _ _ fun p hp => hnh p.2 (mem_enum_snd hp)
  constructor
  · intro ht
    have ht' : jsTrimL (joinNL ((splitLines content).drop
        (mdLoop (splitLines content) (splitLines content).enum ([], 0)).2)) ≠ [] := by
      rw [hloop]
      simpa using ht
    rw [chunkMarkdown_eq_of_tail_ne ht', hloop]
    simp
  · intro ht
    have ht' : jsTrimL (joinNL ((splitLines content).drop
        (mdLoop (splitLines content) (splitLines content).enum ([], 0)).2)) = [] := by
      rw [hloop]
      simpa using ht
    rw [chunkMarkdown_eq_fallback (by rw [hloop]) ht']
    unfold mdFallback
    rw [mdFallbackF_eq (splitLines content).length (splitLines content) 0 (by omega)]
    rw [List.map_map]
    simp only [Nat.sub_zero]
    apply List.map_congr_left
    intro k _
    simp [Nat.mul_comm]

set_option maxRecDepth 40000 in
/-- C3 counterexample: a 151-line heading-free Markdown document is
chunked as a single chunk covering lines 0–150 — one chunk of 151 lines,
not the two sliding 150/30 windows the claim predicts. -/
theorem md_no_heading_cex :
    (∀ l ∈ splitLines mdDoc151, isHeading l = false) ∧
    (splitLines mdDoc151).length = 151 ∧
    (chunkMarkdown mdDoc151).map (fun c => (c.start, c.«end»)) = [(0, 150)] := by decide

/-- C3 witness: the two-line heading-free document `"a\nb"`. -/
theorem md_no_heading_witness :
    (∀ l ∈ splitLines "a\nb", isHeading l = false) ∧
    ((jsTrimL (joinNL (splitLines "a\nb")) ≠ [] →
      (chunkMarkdown "a\nb").map (fun c => (c.start, c.«end»)) =
        [(0, (splitLines "a\nb").length - 1)]) ∧
    (jsTrimL (joinNL (splitLines "a\nb")) = [] →
      (chunkMarkdown "a\nb").map (fun c => (c.start, c.«end»)) =
        (List.range (((splitLines "a\nb").length + 199) / 200)).map
          fun k => (200 * k, min (200 * k + 199) ((splitLines "a\nb").length - 1)))) :=
  ⟨by decide, md_no_heading_behavior "a\nb" (by decide)⟩

/-- C4 (amended): on empty file text both chunkers yield exactly ONE chunk
— with empty text and the degenerate line range (0, 0) — not zero chunks;
and on no input does either chunker yield zero chunks (nor fail: both are
total functions). -/
theorem chunker_empty_input :
    chunkMarkdown "" = [⟨0, 0, ""⟩] ∧ chunkCode "" = [⟨0, 0, ""⟩] ∧
    ∀ content : String, chunkMarkdown content ≠ [] ∧ chunkCode content ≠ [] := by
  refine ⟨by decide, by decide, fun content => ⟨?_, ?_⟩⟩
  · simp only [chunkMarkdown]
    split
    · rw [if_neg (by simp)]
      simp
    · split
      · exact mdFallback_ne_nil (splitLines_ne_nil content)
      · next hfalse => exact fun hc => hfalse (by simp [hc])
  · simp only [chunkCode]
    split
    · simp
    · next hfalse => exact fun hc => hfalse (by simp [hc])

/-- C4 counterexample: on empty input each chunker emits one chunk, not
zero. -/
theorem chunker_empty_input_cex :
    (chunkMarkdown "").length = 1 ∧ (chunkCode "").length = 1 := by decide

set_option maxRecDepth 100000 in
/-- C5 (amended): the 10-line heading-free Markdown doc yields exactly one
chunk covering (1-based) lines 1–10; the 400-line code file yields exactly
FOUR fixed-size chunks — 0-based ranges (0,149), (120,269), (240,389) and
(360,399), window 150, step 120, the last clipped to the file end — not
three. -/
theorem scenario_chunk_counts :
    (chunkMarkdown mdDoc10).map (fun c => (c.start + 1, c.«end» + 1)) = [(1, 10)] ∧
    (chunkCode codeFile400).map (fun c => (c.start, c.«end»)) =
      [(0, 149), (120, 269), (240, 389), (360, 399)] := by decide

set_option maxRecDepth 100000 in
/-- C5 counterexample: the 400-line code file yields 4 chunks, not the 3
the claim states. -/
theorem scenario_chunk_counts_cex : (chunkCode codeFile400).length = 4 := by decide


theorem getD_mem_drop {lines : List String} {s k : Nat} (h1 : s ≤ k)
    (h2 : k < lines.length) : lines.getD k "" ∈ lines.drop s := by
  have e : lines[k]? = some lines[k] := List.getElem?_eq_getElem h2
  have hidx : (lines.drop s)[k - s]? = some (lines.getD k "") := by
    rw [List.getElem?_drop, show s + (k - s) = k by omega, e]
    have hg : lines.getD k "" = lines[k] := by simp [List.getD_eq_getElem?_getD, e]
    rw [hg]
  exact List.getElem?_mem hidx

theorem getD_mem {lines : List String} {k : Nat} (h : k < lines.length) :
    lines.getD k "" ∈ lines := by
  have := getD_mem_drop (Nat.zero_le k) h
  rwa [List.drop_zero] at this

theorem getD_mem_seg {lines : List String} {s i k : Nat} (h1 : s ≤ k) (h2 : k < i)
    (h3 : k < lines.length) : lines.getD k "" ∈ (lines.drop s).take (i - s) := by
  have e : lines[k]? = some lines[k] := List.getElem?_eq_getElem h3
  have hidx : ((lines.drop s).take (i - s))[k - s]? = some (lines.getD k "") := by
    rw [List.getElem?_take, if_pos (by omega), List.getElem?_drop,
      show s + (k - s) = k by omega, e]
    have hg : lines.getD k "" = lines[k] := by simp [List.getD_eq_getElem?_getD, e]
    rw [hg]
  exact List.getElem?_mem hidx

theorem mdLoop_inv (lines : List String) :
    ∀ (ls : List String) (i : Nat) (chunks : List Chunk) (start : Nat),
    lines.drop i = ls → start ≤ i → mdInv lines chunks start →
    mdInv lines (mdLoop lines (List.enumFrom i ls) (chunks, start)).1
      (mdLoop lines (List.enumFrom i ls) (chunks, start)).2 := by
  intro ls
  induction ls with
  | nil => intro i chunks start _ _ hinv; exact hinv
  | cons l ls' ih =>
    intro i chunks start hdrop hle hinv
    have hi : i < lines.length := by
      by_contra hcon
      rw [List.drop_eq_nil_iff.mpr (by omega)] at hdrop
      exact List.cons_ne_nil l ls' hdrop.symm
    have hgetD : lines.getD i "" = l := by
      have h1 : lines[i]? = some l := by
        rw [← List.head?_drop, hdrop]
        rfl
      simp [List.getD_eq_getElem?_getD, h1]
    have hdrop' : lines.drop (i + 1) = ls' := by
      rw [← List.tail_drop, hdrop]
      rfl
    simp only [List.enumFrom, mdLoop]
    by_cases hcond : isHeading l = true ∧ i ≠ 0
    · rw [if_pos hcond]
      by_cases hne : jsTrimL (joinNL ((lines.drop start).take (i - start))) ≠ []
      · rw [if_pos hne]
        apply ih (i + 1) _ i hdrop' (by omega)
        refine ⟨fun h0 => absurd h0 hcond.2, fun _ => ⟨hi, by rw [hgetD]; exact hcond.1⟩, ?_⟩
        intro j hj
        by_cases hjs : j < start
        · rcases hinv.2.2 j hjs with hc | hw
          · left
            obtain ⟨c, hc, hcov⟩ := hc
            exact ⟨c, List.mem_append_left _ hc, hcov⟩
          · right
            exact hw
        · left
          refine ⟨⟨start, i - 1, String.mk (jsTrimL (joinNL ((lines.drop start).take (i - start))))⟩,
            List.mem_append_right _ (List.mem_singleton_self _), ?_, ?_⟩ <;> dsimp only <;> omega
      · rw [if_neg hne]
        have htxt : jsTrimL (joinNL ((lines.drop start).take (i - start))) = [] := not_not.mp hne
        apply ih (i + 1) _ i hdrop' (by omega)
        by_cases hsi : start = i
        · exact hsi ▸ hinv
        · have hlt : start < i := lt_of_le_of_ne hle hsi
          have hsegws : ∀ k, start ≤ k → k < i → wsLine (lines.getD k "") := by
            have hall := (joinNL_all_ws _).mp (jsTrimL_eq_nil_iff.mp htxt)
            intro k hk1 hk2
            exact fun c hc => hall _ (getD_mem_seg hk1 hk2 (by omega)) c hc
          by_cases hs0 : start = 0
          · refine ⟨fun h0 => absurd h0 hcond.2, fun _ => ⟨hi, by rw [hgetD]; exact hcond.1⟩, ?_⟩
            intro j hj
            right
            intro k hk
            exact hsegws k (by omega) (by omega)
          · exfalso
            exact isHeading_not_ws (hinv.2.1 hs0).2 (hsegws start (le_refl _) hlt)
    · rw [if_neg hcond]
      exact ih (i + 1) chunks start hdrop' (by omega) hinv

/-- C2 (amended): under fixed-size windowing the merged chunk ranges cover
exactly the lines of the file (every line in some chunk, no chunk line out
of range); under the heading-delimited policy every line is covered EXCEPT
possibly lines in an all-whitespace prefix of the file preceding the first
heading, which are dropped (see the counterexample). -/
theorem chunk_coverage :
    ∀ content : String,
    (∀ j, covered (chunkCode content) j ↔ j < (splitLines content).length) ∧
    (∀ j, j < (splitLines content).length →
      covered (chunkMarkdown content) j ∨ wsPrefixTo (splitLines content) j) := by
  intro content
  have hn : 0 < (splitLines content).length := List.length_pos.mpr (splitLines_ne_nil content)
  constructor
  · have hcov := codeLoopF_cover (splitLines content).length (splitLines content) 0
      (by omega) hn
    have hne : codeLoopF (splitLines content).length (splitLines content) 0 ≠ [] := by
      intro he
      obtain ⟨c, hc, _⟩ := (hcov 0).mpr ⟨Nat.le_refl 0, hn⟩
      rw [he] at hc
      exact List.not_mem_nil c hc
    intro j
    unfold covered
    simp only [chunkCode]
    rw [if_neg (by simp [List.isEmpty_iff, hne])]
    constructor
    · intro h
      exact ((hcov j).mp h).2
    · intro hj
      exact (hcov j).mpr ⟨Nat.zero_le j, hj⟩
  · have henum : (splitLines content).enum = List.enumFrom 0 (splitLines content) := rfl
    have hinv := mdLoop_inv (splitLines content) (splitLines content) 0 [] 0
      (List.drop_zero _) (Nat.le_refl 0)
      ⟨fun _ => rfl, fun h => absurd rfl h, fun j hj => absurd hj (Nat.not_lt_zero j)⟩
    rw [← henum] at hinv
    intro j hj
    by_cases hS : (mdLoop (splitLines content) (splitLines content).enum ([], 0)).2 = 0
    · have hch : (mdLoop (splitLines content) (splitLines content).enum ([], 0)).1 = [] :=
        hinv.1 hS
      by_cases ht : jsTrimL (joinNL ((splitLines content).drop
          (mdLoop (splitLines content) (splitLines content).enum ([], 0)).2)) = []
      · right
        have hall := (joinNL_all_ws _).mp (jsTrimL_eq_nil_iff.mp ht)
        rw [hS, List.drop_zero] at hall
        intro k hk
        exact fun c hc => hall _ (getD_mem (lt_of_le_of_lt hk hj)) c hc
      · left
        rw [chunkMarkdown_eq_of_tail_ne ht, hch, List.nil_append]
        refine ⟨_, List.mem_singleton_self _, ?_, ?_⟩ <;> dsimp only <;> omega
    · obtain ⟨hSn, hhead⟩ := hinv.2.1 hS
      have htne : jsTrimL (joinNL ((splitLines content).drop
          (mdLoop (splitLines content) (splitLines content).enum ([], 0)).2)) ≠ [] := by
        intro ht
        have hall := (joinNL_all_ws _).mp (jsTrimL_eq_nil_iff.mp ht)
        exact isHeading_not_ws hhead
          (fun c hc => hall _ (getD_mem_drop (Nat.le_refl _) hSn) c hc)
      by_cases hjS : j < (mdLoop (splitLines content) (splitLines content).enum ([], 0)).2
      · rcases hinv.2.2 j hjS with hc | hw
        · left
          obtain ⟨c, hc, hcov⟩ := hc
          rw [chunkMarkdown_eq_of_tail_ne htne]
          exact ⟨c, List.mem_append_left _ hc, hcov⟩
        · right
          exact hw
      · left
        rw [chunkMarkdown_eq_of_tail_ne htne]
        refine ⟨_, List.mem_append_right _ (List.mem_singleton_self _), ?_, ?_⟩ <;>
          dsimp only <;> omega

/-- C2 counterexample: in the 3-line file `"\n# A\nx"` the heading chunker
emits the single range (1, 2) — line 0 (the blank line before the first
heading) is inside no emitted chunk, a gap. -/
theorem chunk_coverage_cex :
    (splitLines "\n# A\nx").length = 3 ∧
    (chunkMarkdown "\n# A\nx").map (fun c => (c.start, c.«end»)) = [(1, 2)] ∧
    ¬ ∃ c ∈ chunkMarkdown "\n# A\nx", c.start ≤ 0 ∧ 0 ≤ c.«end» := by decide

/-- C2 witness: line 1 of the two-line file `"a\nb"` under both policies. -/
theorem chunk_coverage_witness :
    ((1 : Nat) < (splitLines "a\nb").length) ∧
    (covered (chunkCode "a\nb") 1 ↔ 1 < (splitLines "a\nb").length) ∧
    (covered (chunkMarkdown "a\nb") 1 ∨ wsPrefixTo (splitLines "a\nb") 1) :=
  ⟨by decide, (chunk_coverage "a\nb").1 1, (chunk_coverage "a\nb").2 1 (by decide)⟩

end KB
